import Mathlib

/-!
Verification of the monkeyy daily typing challenge engine.

The Go sources are shallowly embedded:
* Go strings are modelled as lists of runes (`GoStr`); Go's `len(s)` is the
  UTF-8 byte length `utf8Len`, `len([]rune(s))` is the list length, and
  string equality is list equality (faithful for valid UTF-8 strings).
* The bubbletea `model` for the typing phase (`internal/data` caller,
  `Update` in the main TUI file) is the record `TypingModel`; only the
  fields the typing-session claims are about are carried (the WPM field is
  analysed separately through the tick functions below, since its value
  never feeds back into the typed-buffer dynamics).
* A Go runtime panic (rune-slice index out of range) is modelled as `none`.
* The badger store and the sqlite table are modelled as association lists;
  the `json.Marshal`/`json.Unmarshal` round trip on `DBEntry` is modelled
  as the identity on the structured value.
-/

namespace Monkeyy

/-- A Go string, modelled as its list of runes (code points). -/
abbrev GoStr := List Nat

/-- Number of bytes of the UTF-8 encoding of a rune. -/
def utf8Size (c : Nat) : Nat :=
  if c < 128 then 1 else if c < 2048 then 2 else if c < 65536 then 3 else 4

/-- Go's `len(s)`: the UTF-8 byte length of the string. -/
def utf8Len (s : GoStr) : Nat := (s.map utf8Size).sum

theorem utf8Size_pos (c : Nat) : 0 < utf8Size c := by
  unfold utf8Size; split <;> [simp; split <;> [simp; split <;> simp]]

theorem utf8Size_eq_one_iff (c : Nat) : utf8Size c = 1 ↔ c < 128 := by
  unfold utf8Size
  split
  · simp; assumption
  · constructor
    · intro h; split at h
      · omega
      · split at h <;> omega
    · intro h; omega

theorem utf8Len_append (s t : GoStr) :
    utf8Len (s ++ t) = utf8Len s + utf8Len t := by
  simp [utf8Len]

theorem utf8Len_cons (c : Nat) (s : GoStr) :
    utf8Len (c :: s) = utf8Size c + utf8Len s := by
  simp [utf8Len]

/-- For a string of single-byte runes, byte length equals rune count. -/
theorem utf8Len_of_ascii (s : GoStr) (h : ∀ c ∈ s, c < 128) :
    utf8Len s = s.length := by
  induction s with
  | nil => rfl
  | cons c rest ih =>
    have hc : c < 128 := h c (by simp)
    have hrest : ∀ x ∈ rest, x < 128 := fun x hx => h x (by simp [hx])
    simp [utf8Len_cons, ih hrest, utf8Size, hc]
    omega

/-- `utf8Len s = 1` forces a single single-byte rune. -/
theorem utf8Len_eq_one (s : GoStr) (h : utf8Len s = 1) :
    ∃ c, s = [c] ∧ c < 128 := by
  match s with
  | [] => simp [utf8Len] at h
  | [c] =>
    refine ⟨c, rfl, ?_⟩
    rw [← utf8Size_eq_one_iff]
    simpa [utf8Len] using h
  | c :: d :: rest =>
    exfalso
    have h1 := utf8Size_pos c
    have h2 := utf8Size_pos d
    simp [utf8Len] at h
    omega

/-! ### Go `unicode` class tests, restricted to the ASCII range.

Only runes below 128 ever reach these tests in the key handler (the
`len(msg.String()) == 1` guard), so the tables are exact on the inputs that
occur; code points at or above 128 are mapped to `false`. -/

/-- `unicode.IsLetter` on the ASCII range. -/
def goIsLetter (c : Nat) : Bool :=
  (65 ≤ c && c ≤ 90) || (97 ≤ c && c ≤ 122)

/-- `unicode.IsNumber` on the ASCII range. -/
def goIsNumber (c : Nat) : Bool := 48 ≤ c && c ≤ 57

/-- `unicode.IsSpace` on the ASCII range: `\t \n \v \f \r` and space. -/
def goIsSpace (c : Nat) : Bool := [9, 10, 11, 12, 13, 32].contains c

/-- `unicode.IsPunct` on the ASCII range: the category-P code points
`! " # % & ' ( ) * , - . / : ; ? @ [ \ ] _ { }` (symbols such as
`$ + < = > ^ \x60 | ~` are category S and are NOT punctuation in Go). -/
def goIsPunct (c : Nat) : Bool :=
  [33, 34, 35, 37, 38, 39, 40, 41, 42, 44, 45, 46, 47, 58, 59,
   63, 64, 91, 92, 93, 95, 123, 125].contains c

/-- The acceptance test of the character branch of `Update`:
`unicode.IsLetter(r) || unicode.IsPunct(r) || unicode.IsSpace(r) || unicode.IsNumber(r)`. -/
def goPrintable (c : Nat) : Bool :=
  goIsLetter c || goIsPunct c || goIsSpace c || goIsNumber c

/-! ### The typing-session state machine (`Update`, typing phase) -/

/-- The typing-phase fields of the bubbletea `model`. -/
structure TypingModel where
  textToType : GoStr
  textUserTyped : GoStr
  startTime : ℚ
  didUserStartTyping : Bool
  deriving DecidableEq, Repr

/-- The `"backspace"` branch of `Update` (`case tea.KeyMsg`): sets
`didUserStartTyping`, then drops the last byte of `textUserTyped` and, if the
remaining string ends in `'\n'`, drops that byte too.  The byte slicing
`s[:len(s)-1]` is modelled as dropping the last rune, which is exact because
every rune the machine ever appends is a single byte. -/
def backspaceStep (st : TypingModel) : TypingModel :=
  let st' := { st with didUserStartTyping := true }
  if st'.textUserTyped = [] then st'
  else
    let t := st'.textUserTyped.dropLast
    let t' := if t ≠ [] ∧ t.getLast? = some 10 then t.dropLast else t
    { st' with textUserTyped := t' }

/-- The single-character branch of `Update` (`case tea.KeyMsg`, when
`len(msg.String()) == 1`): sets `didUserStartTyping`; if the rune is accepted
by the `unicode` class test, records `startTime` on an empty buffer, and
appends while `len(textUserTyped) < len(textToType)` (byte lengths),
auto-inserting a line-break when the next unconsumed target rune is `'\n'`.
`none` models the Go panic when `[]rune(textToType)[len([]rune(textUserTyped))]`
is out of range. -/
def updateChar (st : TypingModel) (now : ℚ) (c : Nat) : Option TypingModel :=
  let st1 := { st with didUserStartTyping := true }
  if goPrintable c then
    let st2 := if utf8Len st1.textUserTyped == 0 then { st1 with startTime := now } else st1
    if utf8Len st2.textUserTyped < utf8Len st2.textToType then
      match st2.textToType.get? st2.textUserTyped.length with
      | none => none
      | some nc =>
        if nc == 10 then
          let st3 := { st2 with textUserTyped := st2.textUserTyped ++ [10] }
          if utf8Len st3.textUserTyped < utf8Len st3.textToType then
            some { st3 with textUserTyped := st3.textUserTyped ++ [c] }
          else some st3
        else some { st2 with textUserTyped := st2.textUserTyped ++ [c] }
    else some st2
  else some st1

/-- The rune list of the string `"backspace"`. -/
def backspaceLit : GoStr := [98, 97, 99, 107, 115, 112, 97, 99, 101]

/-- `Update` on a `tea.KeyMsg` in the typing phase (`userSetUsername` true).
Keys whose string form is neither `"backspace"` nor a single byte fall
through to `return m, nil` (this covers `"ctrl+c"`, which returns `m`
unchanged together with a quit command, and every other special key). -/
def updateKeyStr (st : TypingModel) (now : ℚ) (s : GoStr) : Option TypingModel :=
  if s = backspaceLit then some (backspaceStep st)
  else if utf8Len s == 1 then updateChar st now (s.headD 0)
  else some st

/-- An input event of the session: a key message (with the wall-clock
instant used for `time.Now()`) or a WPM tick. -/
inductive Event where
  | key (now : ℚ) (s : GoStr)
  | tick
  deriving DecidableEq, Repr

/-- One `Update` step restricted to the fields of `TypingModel`.  A tick
leaves all of them unchanged (it only recomputes the WPM figure and may
fire the submission command, neither of which is a `TypingModel` field). -/
def step (st : TypingModel) : Event → Option TypingModel
  | .key now s => updateKeyStr st now s
  | .tick => some st

/-- The model right after the daily sentence arrives
(`randomSentenceReceivedMsg`): nothing typed yet. -/
def initModel (target : GoStr) : TypingModel :=
  { textToType := target, textUserTyped := [], startTime := 0,
    didUserStartTyping := false }

/-- Run a sequence of events from the initial session state. -/
def runEvents (target : GoStr) (evs : List Event) : Option TypingModel :=
  evs.foldlM step (initModel target)

/-- `didUserFinishTyping`:
`len(m.textUserTyped) == len([]rune(m.textToType)) && m.textUserTyped == m.textToType`
(the first length is a byte count, the second a rune count). -/
def didUserFinishTyping (m : TypingModel) : Bool :=
  (utf8Len m.textUserTyped == m.textToType.length) && (m.textUserTyped == m.textToType)

/-- All runes of the typed buffer are single-byte. -/
def AsciiTyped (st : TypingModel) : Prop := ∀ x ∈ st.textUserTyped, x < 128

theorem updateChar_typed_cases (st : TypingModel) (now : ℚ) (c : Nat)
    (st' : TypingModel) (he : updateChar st now c = some st') :
    st'.textToType = st.textToType ∧
    (st'.textUserTyped = st.textUserTyped ∨
     st'.textUserTyped = st.textUserTyped ++ [c] ∨
     st'.textUserTyped = st.textUserTyped ++ [10] ∨
     st'.textUserTyped = st.textUserTyped ++ [10] ++ [c]) := by
  simp only [updateChar] at he
  split at he
  · split at he <;>
      (split at he
       · split at he
         · exact absurd he (by simp)
         · split at he
           · split at he <;> (cases he; constructor <;> simp)
           · cases he; constructor <;> simp
       · cases he; constructor <;> simp)
  · cases he; constructor <;> simp

theorem backspaceStep_typed_cases (st : TypingModel) :
    (backspaceStep st).textToType = st.textToType ∧
    ((backspaceStep st).textUserTyped = st.textUserTyped ∨
     (backspaceStep st).textUserTyped = st.textUserTyped.dropLast ∨
     (backspaceStep st).textUserTyped = st.textUserTyped.dropLast.dropLast) := by
  simp only [backspaceStep]
  split
  · simp_all
  · split <;> simp

theorem step_invariant (st st' : TypingModel) (e : Event)
    (h : AsciiTyped st) (he : step st e = some st') :
    AsciiTyped st' ∧ st'.textToType = st.textToType := by
  cases e with
  | tick => cases he; exact ⟨h, rfl⟩
  | key now s =>
    simp only [step, updateKeyStr] at he
    split at he
    · cases he
      obtain ⟨h1, h2⟩ := backspaceStep_typed_cases st
      refine ⟨?_, h1⟩
      intro x hx
      rcases h2 with h2 | h2 | h2 <;> rw [h2] at hx
      · exact h x hx
      · exact h x (List.dropLast_sublist _ |>.mem hx)
      · exact h x ((List.dropLast_sublist _).mem ((List.dropLast_sublist _).mem hx))
    · split at he
      · rename_i hlen
        obtain ⟨c, hs, hc⟩ := utf8Len_eq_one s (by simpa using hlen)
        subst hs
        obtain ⟨h1, h2⟩ := updateChar_typed_cases st now c st' (by simpa using he)
        refine ⟨?_, h1⟩
        intro x hx
        have hx' : x ∈ st.textUserTyped ∨ x = c ∨ x = 10 := by
          rcases h2 with h2 | h2 | h2 | h2 <;> rw [h2] at hx <;>
            first
              | tauto
              | (simp at hx; tauto)
        rcases hx' with hx' | hx' | hx'
        · exact h x hx'
        · omega
        · omega
      · cases he; exact ⟨h, rfl⟩

theorem foldl_invariant (evs : List Event) (st m : TypingModel)
    (h : evs.foldlM step st = some m) (hst : AsciiTyped st) :
    AsciiTyped m ∧ m.textToType = st.textToType := by
  induction evs generalizing st with
  | nil =>
    simp only [List.foldlM_nil, Option.pure_def, Option.some.injEq] at h
    subst h; exact ⟨hst, rfl⟩
  | cons e rest ih =>
    simp only [List.foldlM_cons] at h
    rcases Option.bind_eq_some.mp h with ⟨st1, h1, h2⟩
    obtain ⟨ha1, ht1⟩ := step_invariant st st1 e hst h1
    obtain ⟨ha2, ht2⟩ := ih st1 h2 ha1
    exact ⟨ha2, ht2.trans ht1⟩

/-- Every reachable session state has a typed buffer of single-byte runes,
and the target text never changes. -/
theorem runEvents_invariant (target : GoStr) (evs : List Event) (m : TypingModel)
    (h : runEvents target evs = some m) :
    AsciiTyped m ∧ m.textToType = target := by
  have := foldl_invariant evs (initModel target) m h (by intro x hx; simp [initModel] at hx)
  simpa [initModel] using this

/-- C2: in every reachable session state, `didUserFinishTyping` (the finished
signal that triggers submission) is true if and only if the typed string
equals the target string exactly, rune for rune. -/
theorem isComplete_iff_typed_eq_target
    (target : GoStr) (evs : List Event) (m : TypingModel)
    (h : runEvents target evs = some m) :
    didUserFinishTyping m = true ↔ m.textUserTyped = m.textToType := by
  obtain ⟨hascii, -⟩ := runEvents_invariant target evs m h
  unfold didUserFinishTyping
  constructor
  · intro hb
    simp only [Bool.and_eq_true, beq_iff_eq] at hb
    exact hb.2
  · intro heq
    have htgt : ∀ x ∈ m.textToType, x < 128 := fun x hx => hascii x (heq ▸ hx)
    simp only [Bool.and_eq_true, beq_iff_eq]
    exact ⟨heq ▸ utf8Len_of_ascii _ (heq ▸ htgt), heq⟩

/-- Concrete instance of C2: the session that typed `"ca"` against `"cat"`. -/
def c2Model : TypingModel :=
  { textToType := [99, 97, 116], textUserTyped := [99, 97], startTime := 0,
    didUserStartTyping := true }

theorem isComplete_iff_typed_eq_target_witness :
    didUserFinishTyping c2Model = true ↔ c2Model.textUserTyped = c2Model.textToType :=
  isComplete_iff_typed_eq_target [99, 97, 116]
    [.key 0 [99], .key 1 [97]] c2Model (by decide)

/-- C10: the key handler only appends runes of single-byte keys (plus the
auto-inserted `'\n'`), so every reachable typed buffer is single-byte; for a
target containing a multi-byte rune the typed buffer can never equal the
target and completion is unreachable. -/
theorem multibyte_target_never_completes
    (target : GoStr) (evs : List Event) (m : TypingModel)
    (h : runEvents target evs = some m) (c : Nat) (hc : c ∈ target)
    (hbig : 128 ≤ c) :
    (∀ x ∈ m.textUserTyped, x < 128) ∧ didUserFinishTyping m = false := by
  obtain ⟨hascii, htgt⟩ := runEvents_invariant target evs m h
  refine ⟨hascii, ?_⟩
  have hne : m.textUserTyped ≠ m.textToType := by
    intro heq
    have := hascii c (heq ▸ htgt ▸ hc)
    omega
  simp [didUserFinishTyping, hne]

/-- Concrete instance of C10: target `“` (U+201C), one keystroke `'a'`. -/
def c10Model : TypingModel :=
  { textToType := [8220], textUserTyped := [97], startTime := 0,
    didUserStartTyping := true }

theorem multibyte_target_never_completes_witness :
    (∀ x ∈ c10Model.textUserTyped, x < 128) ∧ didUserFinishTyping c10Model = false :=
  multibyte_target_never_completes [8220] [.key 0 [97]] c10Model
    (by decide) 8220 (by decide) (by decide)

/-! ### C7: keystroke dropping -/

/-- The initial session state against target `"a"`: nothing typed,
`didUserStartTyping` still false. -/
def c7Model : TypingModel :=
  { textToType := [97], textUserTyped := [], startTime := 0,
    didUserStartTyping := false }

/-- C7 counterexample: `'+'` (rune 43) is not a letter, digit, punctuation
(category P) or whitespace, so per the claim the keystroke should be a
no-op in every state — but in the initial state it flips
`didUserStartTyping`, so the state does change. -/
theorem nonprintable_key_changes_state :
    goPrintable 43 = false ∧ updateKeyStr c7Model 5 [43] ≠ some c7Model := by
  decide

/-- C7 amended: the typed buffer never grows past the target's byte length —
a printable keystroke arriving on a full buffer and any non-accepted
keystroke leave the typed buffer untouched — but such keystrokes are not
complete no-ops: every single-byte keystroke sets `didUserStartTyping`, and
a printable one arriving on an empty buffer records `startTime`. -/
theorem typed_buffer_never_exceeds_target (st : TypingModel) (now : ℚ) (c : Nat)
    (hc : c < 128) :
    (∀ st', updateChar st now c = some st' →
        utf8Len st.textUserTyped ≤ utf8Len st.textToType →
        utf8Len st'.textUserTyped ≤ utf8Len st.textToType) ∧
    (goPrintable c = false →
        updateChar st now c = some { st with didUserStartTyping := true }) ∧
    (goPrintable c = true → utf8Len st.textUserTyped = utf8Len st.textToType →
        updateChar st now c = some { st with
          didUserStartTyping := true
          startTime := if utf8Len st.textUserTyped = 0 then now else st.startTime }) := by
  have hsz : utf8Size c = 1 := (utf8Size_eq_one_iff c).mpr hc
  have h10 : utf8Size 10 = 1 := rfl
  refine ⟨?_, ?_, ?_⟩
  · intro st' he hle
    simp only [updateChar] at he
    split at he
    · split at he <;>
        (split at he
         · rename_i hlt
           split at he
           · exact absurd he (by simp)
           · split at he
             · split at he <;> rename_i hlt2 <;> cases he <;>
                 simp_all [utf8Len_append, utf8Len_cons, utf8Len] <;> omega
             · cases he
               simp_all [utf8Len_append, utf8Len_cons, utf8Len]
               omega
         · cases he; simpa using hle)
    · cases he; simpa using hle
  · intro hp
    simp [updateChar, hp]
  · intro hp hfull
    simp only [updateChar, hp, if_true]
    split <;> rename_i h0
    · have h0' : utf8Len st.textUserTyped = 0 := by simpa using h0
      simp [h0', hfull ▸ h0', show ¬ ((0:Nat) < 0) from by omega]
    · have h0' : ¬ utf8Len st.textUserTyped = 0 := by simpa using h0
      have ht0 : ¬ utf8Len st.textToType = 0 := hfull ▸ h0'
      simp [h0', ht0, hfull,
        show ¬ (utf8Len st.textToType < utf8Len st.textToType) from by omega]

/-- Concrete instance of C7 (amended): a printable key on a full one-char
buffer only sets the started flag. -/
def c7FullModel : TypingModel :=
  { textToType := [98], textUserTyped := [98], startTime := 2,
    didUserStartTyping := false }

theorem typed_buffer_never_exceeds_target_witness :
    updateChar c7FullModel 9 97 = some { c7FullModel with
      didUserStartTyping := true
      startTime := if utf8Len c7FullModel.textUserTyped = 0 then 9 else c7FullModel.startTime } :=
  (typed_buffer_never_exceeds_target c7FullModel 9 97 (by decide)).2.2 (by decide) (by decide)

/-! ### C8: backspace -/

/-- C8: on an empty buffer backspace leaves the buffer unchanged; on a
non-empty buffer it removes exactly the last rune and, when the remaining
buffer then ends in the auto-inserted line-break `'\n'`, removes that too,
so one backspace undoes one visible character. -/
theorem backspace_removes_one_visible_char (st : TypingModel) :
    (st.textUserTyped = [] → (backspaceStep st).textUserTyped = st.textUserTyped) ∧
    (∀ xs c, st.textUserTyped = xs ++ [c] →
      (backspaceStep st).textUserTyped =
        if xs.getLast? = some 10 then xs.dropLast else xs) := by
  constructor
  · intro h
    simp [backspaceStep, h]
  · intro xs c hx
    simp only [backspaceStep, hx]
    split
    · simp_all
    · have hdrop : (xs ++ [c]).dropLast = xs := by simp
      split <;> rename_i hcond
      · rw [hdrop] at hcond ⊢
        simp [hcond.2]
      · rw [hdrop] at hcond ⊢
        rcases Decidable.em (xs = []) with hxe | hxe
        · simp [hxe]
        · simp only [not_and_or, not_ne_iff] at hcond
          rcases hcond with h | h
          · simp [h]
          · simp [h, hxe]

/-- Concrete instance of C8: typed `"a\nb"`, one backspace removes the `'b'`
and the auto-inserted line-break before it. -/
def c8Model : TypingModel :=
  { textToType := [97, 10, 98, 99], textUserTyped := [97, 10, 98], startTime := 0,
    didUserStartTyping := true }

theorem backspace_removes_one_visible_char_witness :
    (backspaceStep c8Model).textUserTyped = [97] := by
  have h := (backspace_removes_one_visible_char c8Model).2 [97, 10] 98 rfl
  simpa using h

/-! ### C4: the WPM recomputation on `tickMsg`

The correct-character loop
`for i, char := range m.textUserTyped { if i < len(m.textToType) && char == []rune(m.textToType)[i] { ... } }`
walks byte offsets `i` of the typed text, guards by the byte length of the
target, and indexes the rune slice of the target by that byte offset;
`none` models the Go panic when that rune index is out of range.  The
`float64` arithmetic of the WPM formula is modelled exactly over `ℚ`
(`int(x)` truncates toward zero). -/

/-- The `totalCorrectCharactersTyped` loop: remaining typed runes, target,
current byte offset into the typed text, accumulator. -/
def totalCorrectChars : GoStr → GoStr → Nat → Nat → Option Nat
  | [], _, _, acc => some acc
  | c :: rest, target, off, acc =>
    if off < utf8Len target then
      match target.get? off with
      | none => none
      | some ch =>
        totalCorrectChars rest target (off + utf8Size c) (acc + if c == ch then 1 else 0)
    else totalCorrectChars rest target (off + utf8Size c) acc

/-- Go's `int(x)` conversion on a finite float: truncation toward zero. -/
def goTrunc (q : ℚ) : Int := if 0 ≤ q then ⌊q⌋ else -⌊-q⌋

/-- The `tickMsg` WPM assignment of the production TUI
(src/unnamed/part_000, lines 702-720): no division guard.  When
`elapsedMinutes = 0` the Go code computes `int(float64(t)/5.0/0.0)`, an
`Inf`- or `NaN`-to-int conversion whose value is implementation-defined in
Go (a huge negative number on amd64) — modelled as `none`; it is in no case
the previous WPM value. -/
def tickWPMProd (typed target : GoStr) (elapsedMinutes : ℚ) : Option Int :=
  match totalCorrectChars typed target 0 0 with
  | none => none
  | some t =>
    if elapsedMinutes = 0 then none
    else some (goTrunc ((t : ℚ) / 5 / elapsedMinutes))

/-- The `tickMsg` WPM assignment of the test TUI
(src/cmd/test/test-sentence.go, lines 512-534): guarded by
`if time.Since(m.startTime).Minutes() > 0`, keeping the previous WPM
otherwise. -/
def tickWPMTest (typed target : GoStr) (elapsedMinutes : ℚ) (prevWPM : Int) : Option Int :=
  match totalCorrectChars typed target 0 0 with
  | none => none
  | some t =>
    if 0 < elapsedMinutes then some (goTrunc ((t : ℚ) / 5 / elapsedMinutes))
    else some prevWPM

/-- The rune list of `"cat sat"`. -/
def catSat : GoStr := [99, 97, 116, 32, 115, 97, 116]

/-- C4: at elapsed time zero the production tick has no defined WPM value at
all (division by zero, modelled `none`) instead of keeping the previous
value; the guarded test tick keeps the previous value at zero elapsed time
and otherwise computes `floor(correctChars / 5 / elapsedMinutes)` — e.g.
`"cat sat"` typed perfectly in 6 s (1/10 min) gives 14, and one correct of
seven chars in 1/10 min gives `floor(2.0) = 2`, never negative. -/
theorem tick_zero_elapsed_divergence :
    tickWPMProd [99] [99, 97] 0 = none ∧
    tickWPMTest [99] [99, 97] 0 7 = some 7 ∧
    tickWPMTest catSat catSat (1/10) 0 = some 14 ∧
    tickWPMTest [99, 98, 99, 98, 99, 98, 99] catSat (1/10) 0 = some 2 := by
  constructor
  · rfl
  constructor
  · rfl
  constructor
  · simp [tickWPMTest, totalCorrectChars, catSat, goTrunc, utf8Len, utf8Size]
    norm_num
  · simp [tickWPMTest, totalCorrectChars, catSat, goTrunc, utf8Len, utf8Size]
    norm_num

/-! ### C9: the rendering classification (`renderTypingTest`) -/

/-- How one target position is rendered. -/
inductive CharClass where
  | correct
  | wrong
  | current
  | untyped
  | lineBreak
  deriving DecidableEq, Repr

/-- The classification loop of `renderTypingTest`: walks the target runes
with index `i`, carrying `foundError` and `highlightNextAsCurrent` exactly
as the Go loop does.  A `'\n'` target rune is written as a plain line break
(no class) and, when it sits right at the typed length, arms
`highlightNextAsCurrent`. -/
def renderClassesAux (typed : GoStr) (typedLen : Nat) :
    List Nat → Nat → Bool → Bool → List CharClass
  | [], _, _, _ => []
  | ch :: rest, i, foundError, highlightNext =>
    if ch == 10 then
      CharClass.lineBreak ::
        renderClassesAux typed typedLen rest (i + 1) foundError
          (if i == typedLen then true else highlightNext)
    else if highlightNext then
      CharClass.current :: renderClassesAux typed typedLen rest (i + 1) foundError false
    else if i < typedLen then
      if foundError then
        CharClass.wrong :: renderClassesAux typed typedLen rest (i + 1) foundError highlightNext
      else if typed.getD i 0 ≠ ch then
        CharClass.wrong :: renderClassesAux typed typedLen rest (i + 1) true highlightNext
      else
        CharClass.correct :: renderClassesAux typed typedLen rest (i + 1) foundError highlightNext
    else if i == typedLen then
      CharClass.current :: renderClassesAux typed typedLen rest (i + 1) foundError highlightNext
    else
      CharClass.untyped :: renderClassesAux typed typedLen rest (i + 1) foundError highlightNext

/-- The per-position classification of `renderTypingTest`
(`typedLength := len([]rune(typedText))`, initial flags false). -/
def renderClasses (typed target : GoStr) : List CharClass :=
  renderClassesAux typed typed.length target 0 false false

/-- The index of the first position where typed and target disagree
(`min (length typed) (length target)` when there is no disagreement). -/
def firstMismatch : GoStr → GoStr → Nat
  | t :: ts, c :: cs => if t == c then firstMismatch ts cs + 1 else 0
  | _, _ => 0

/-- The claim's classification rule for one target position: typed
positions before the error boundary are correct, every typed position at or
after it is incorrect, the position right after the typed prefix is
current, the rest untyped. -/
def classRule (typed target : GoStr) (i : Nat) : CharClass :=
  if i < typed.length then
    if i < firstMismatch typed target then CharClass.correct else CharClass.wrong
  else if i == typed.length then CharClass.current
  else CharClass.untyped

/-- The claim's classification of all target positions. -/
def classifySpec (typed target : GoStr) : List CharClass :=
  (List.range target.length).map (classRule typed target)

theorem firstMismatch_le_left (t c : GoStr) : firstMismatch t c ≤ t.length := by
  induction t generalizing c with
  | nil => simp [firstMismatch]
  | cons a ts ih =>
    cases c with
    | nil => simp [firstMismatch]
    | cons b cs =>
      simp only [firstMismatch]
      split
      · have := ih cs
        simp only [List.length_cons]
        omega
      · simp

theorem firstMismatch_get_eq (t c : GoStr) :
    ∀ j, j < firstMismatch t c → t.get? j = c.get? j := by
  induction t generalizing c with
  | nil => intro j hj; simp [firstMismatch] at hj
  | cons a ts ih =>
    intro j hj
    cases c with
    | nil => simp [firstMismatch] at hj
    | cons b cs =>
      simp only [firstMismatch] at hj
      split at hj
      · rename_i hab
        simp only [beq_iff_eq] at hab
        cases j with
        | zero => simp [hab]
        | succ j' => simpa using ih cs j' (by omega)
      · omega

theorem firstMismatch_lt_mismatch (t c : GoStr)
    (h1 : firstMismatch t c < t.length) (h2 : firstMismatch t c < c.length) :
    t.get? (firstMismatch t c) ≠ c.get? (firstMismatch t c) := by
  induction t generalizing c with
  | nil => simp at h1
  | cons a ts ih =>
    cases c with
    | nil => simp at h2
    | cons b cs =>
      by_cases hab : a = b
      · have hb : (a == b) = true := by simpa using hab
        simp only [firstMismatch, hb, if_true, List.length_cons] at h1 h2 ⊢
        simpa using ih cs (by omega) (by omega)
      · have hb : (a == b) = false := by simpa using hab
        simp only [firstMismatch, hb, Bool.false_eq_true, if_false]
        simp [hab]

theorem renderAux_eq (typed target : GoStr) (hnl : (10 : Nat) ∉ target) :
    ∀ (rest : List Nat) (i : Nat) (foundError : Bool),
      target.drop i = rest →
      foundError = decide (firstMismatch typed target < i ∧
        firstMismatch typed target < typed.length) →
      renderClassesAux typed typed.length rest i foundError false
        = (List.range' i rest.length).map (classRule typed target) := by
  intro rest
  induction rest with
  | nil =>
    intro i foundError hdrop hfe
    simp [renderClassesAux]
  | cons ch rest' ih =>
    intro i foundError hdrop hfe
    have hget : target.get? i = some ch := by
      have h0 := List.get?_drop target i 0
      rw [hdrop] at h0
      simpa using h0.symm
    have hmem : ch ∈ target := List.get?_mem hget
    have hch10 : (ch == 10) = false := by
      have hne : ch ≠ 10 := fun h => hnl (h ▸ hmem)
      simpa using hne
    have hilt : i < target.length := (List.get?_eq_some.mp hget).1
    have hdrop' : target.drop (i + 1) = rest' := by
      have h1 : target.drop (i + 1) = (target.drop i).drop 1 := (List.drop_drop 1 i target).symm
      rw [h1, hdrop]
      rfl
    have hfele := firstMismatch_le_left typed target
    have hr : List.range' i (rest'.length + 1) = i :: List.range' (i + 1) rest'.length := rfl
    simp only [renderClassesAux, hch10, Bool.false_eq_true, if_false, List.length_cons, hr,
      List.map_cons]
    by_cases hit : i < typed.length
    · obtain ⟨tc, htc⟩ : ∃ tc, typed.get? i = some tc := by
        rcases h : typed.get? i with _ | tc
        · exact absurd (List.get?_eq_none.mp h) (by omega)
        · exact ⟨tc, rfl⟩
      have hgetD : List.getD typed i 0 = tc := by
        rw [List.getD_eq_getElem?_getD, ← List.get?_eq_getElem?, htc]
        rfl
      by_cases hfound : firstMismatch typed target < i ∧ firstMismatch typed target < typed.length
      · have hfe' : foundError = true := by rw [hfe]; simp [hfound]
        have hcr : classRule typed target i = CharClass.wrong := by
          simp [classRule, hit, show ¬ i < firstMismatch typed target by omega]
        rw [hfe']
        simp only [hit, if_true, if_pos rfl, hcr]
        refine congrArg _ ?_
        exact ih (i + 1) true hdrop'
          ((decide_eq_true ⟨by omega, hfound.2⟩).symm)
      · have hfe' : foundError = false := by rw [hfe]; simp [hfound]
        rw [hfe']
        by_cases hmis : tc = ch
        · have hifs : i < firstMismatch typed target := by
            rcases Nat.lt_trichotomy (firstMismatch typed target) i with hx | hx | hx
            · exact absurd ⟨hx, by omega⟩ hfound
            · exfalso
              have := firstMismatch_lt_mismatch typed target (by omega) (by omega)
              rw [hx, htc, hget] at this
              exact this (by rw [hmis])
            · exact hx
          have hcr : classRule typed target i = CharClass.correct := by
            simp [classRule, hit, hifs]
          have hne : ¬ List.getD typed i 0 ≠ ch := by rw [hgetD, hmis]; simp
          simp only [hit, if_true, Bool.false_eq_true, if_false, hcr]
          rw [if_neg hne]
          refine congrArg _ ?_
          exact ih (i + 1) false hdrop'
            ((decide_eq_false (by rintro ⟨h1, h2⟩; omega)).symm)
        · have hfei : firstMismatch typed target = i := by
            have hle : firstMismatch typed target ≤ i := by
              by_contra hgt
              have := firstMismatch_get_eq typed target i (by omega)
              rw [htc, hget] at this
              exact hmis (by simpa using this)
            rcases Nat.lt_or_ge (firstMismatch typed target) i with hx | hx
            · exfalso
              exact hfound ⟨hx, by omega⟩
            · omega
          have hcr : classRule typed target i = CharClass.wrong := by
            simp [classRule, hit, show ¬ i < firstMismatch typed target by omega]
          have hne : List.getD typed i 0 ≠ ch := by rw [hgetD]; exact hmis
          simp only [hit, if_true, Bool.false_eq_true, if_false, hcr]
          rw [if_pos hne]
          refine congrArg _ ?_
          exact ih (i + 1) true hdrop'
            ((decide_eq_true ⟨by omega, by omega⟩).symm)
    · have hcr : classRule typed target i =
          (if (i == typed.length) = true then CharClass.current else CharClass.untyped) := by
        simp only [classRule, hit, if_false]
      have hinv : foundError = decide (firstMismatch typed target < i + 1 ∧
          firstMismatch typed target < typed.length) := by
        rw [hfe]
        refine decide_eq_decide.mpr ?_
        constructor
        · rintro ⟨h1, h2⟩; exact ⟨by omega, h2⟩
        · rintro ⟨h1, h2⟩; exact ⟨by omega, h2⟩
      by_cases heq : (i == typed.length) = true
      · simp only [hit, if_false, heq, if_true, hcr]
        refine congrArg _ ?_
        exact ih (i + 1) foundError hdrop' hinv
      · simp only [hit, if_false, heq, Bool.false_eq_true, hcr]
        refine congrArg _ ?_
        exact ih (i + 1) foundError hdrop' hinv

/-- C9: for a target without line-breaks, the rendering classification of
`renderTypingTest` agrees position-for-position with the claim's rule: the
first typed/target disagreement is an error boundary, every typed position
at or after it is rendered incorrect even if its own rune matches, the
position right after the typed prefix is current, the rest untyped. -/
theorem renderClasses_eq_spec (typed target : GoStr) (hnl : (10 : Nat) ∉ target) :
    renderClasses typed target = classifySpec typed target := by
  have h := renderAux_eq typed target hnl target 0 false rfl (by simp)
  simpa [renderClasses, classifySpec, List.range_eq_range'] using h

/-- Concrete instance of C9 (scenario B of the spec): target `"abc"`, typed
`"abd"` — classification Correct, Correct, Incorrect. -/
theorem renderClasses_eq_spec_witness :
    ((10 : Nat) ∉ ([97, 98, 99] : GoStr)) ∧
    renderClasses [97, 98, 100] [97, 98, 99] = classifySpec [97, 98, 100] [97, 98, 99] ∧
    classifySpec [97, 98, 100] [97, 98, 99] =
      [CharClass.correct, CharClass.correct, CharClass.wrong] :=
  ⟨by decide, renderClasses_eq_spec [97, 98, 100] [97, 98, 99] (by decide), by decide⟩

/-! ### Go's `sort.Slice`

`GetLeaderBoard` sorts with `sort.Slice(entries, func(i, j int) bool {
return entries[i].WPM > entries[j].WPM })`.  `sort.Slice` is not part of
this repository; it is embedded here following its go1.19+ implementation,
pdqsort over a `lessSwap` pair (earlier Go versions used an introsort that
is likewise not stable).  Index reads out of range never occur in the
algorithm and default to no-ops/`false`.  Loops that the recursion bounds
by construction carry an explicit fuel argument, always called with enough
fuel. -/

/-- `data.Less(i, j)`. -/
def lessIdx (less : α → α → Bool) (l : List α) (i j : Nat) : Bool :=
  match l.get? i, l.get? j with
  | some x, some y => less x y
  | _, _ => false

/-- `data.Swap(i, j)`. -/
def swapIdx (l : List α) (i j : Nat) : List α :=
  match l.get? i, l.get? j with
  | some x, some y => (l.set i y).set j x
  | _, _ => l

/-- Inner loop of `insertionSort_func`:
`for j := i; j > a && data.Less(j, j-1); j-- { data.Swap(j, j-1) }`.
The fuel (always supplied as `j + 1`, enough for the descent to `a`) keeps
the recursion structural so that it computes in the kernel. -/
def insInner (less : α → α → Bool) (a : Nat) : Nat → List α → Nat → List α
  | 0, l, _ => l
  | fuel + 1, l, j =>
    if a < j ∧ lessIdx less l j (j - 1) then
      insInner less a fuel (swapIdx l j (j - 1)) (j - 1)
    else l

/-- Outer loop of `insertionSort_func`: `for i := a + 1; i < b; i++`. -/
def insOuter (less : α → α → Bool) (a b : Nat) : Nat → List α → Nat → List α
  | 0, l, _ => l
  | fuel + 1, l, i =>
    if i < b then insOuter less a b fuel (insInner less a (i + 1) l i) (i + 1) else l

/-- `insertionSort_func(data, a, b)`. -/
def insertionSortGo (less : α → α → Bool) (l : List α) (a b : Nat) : List α :=
  insOuter less a b (b + 1) l (a + 1)

/-- The loop of `siftDown_func`. -/
def siftDownLoop (less : α → α → Bool) (fuel : Nat) (l : List α)
    (hi first root : Nat) : List α :=
  match fuel with
  | 0 => l
  | fuel + 1 =>
    let child := 2 * root + 1
    if child ≥ hi then l
    else
      let child :=
        if child + 1 < hi ∧ lessIdx less l (first + child) (first + child + 1) then child + 1
        else child
      if ¬ lessIdx less l (first + root) (first + child) then l
      else siftDownLoop less fuel (swapIdx l (first + root) (first + child)) hi first child

/-- `siftDown_func(data, lo, hi, first)`. -/
def siftDownGo (less : α → α → Bool) (l : List α) (lo hi first : Nat) : List α :=
  siftDownLoop less (hi + 1) l hi first lo

/-- First loop of `heapSort_func`: `for i := (hi-1)/2; i >= 0; i--`. -/
def heapBuildLoop (less : α → α → Bool) (hi first : Nat) : Nat → List α → Nat → List α
  | 0, l, _ => l
  | fuel + 1, l, i =>
    let l' := siftDownGo less l i hi first
    if i = 0 then l' else heapBuildLoop less hi first fuel l' (i - 1)

/-- Second loop of `heapSort_func`: `for i := hi-1; i >= 0; i--`. -/
def heapExtractLoop (less : α → α → Bool) (first : Nat) : Nat → List α → Nat → List α
  | 0, l, _ => l
  | fuel + 1, l, i =>
    let l' := swapIdx l first (first + i)
    let l'' := siftDownGo less l' 0 i first
    if i = 0 then l'' else heapExtractLoop less first fuel l'' (i - 1)

/-- `heapSort_func(data, a, b)`. -/
def heapSortGo (less : α → α → Bool) (l : List α) (a b : Nat) : List α :=
  let first := a
  let hi := b - a
  let l1 := heapBuildLoop less hi first (hi + 1) l ((hi - 1) / 2)
  heapExtractLoop less first (hi + 1) l1 (hi - 1)

/-- `reverseRange_func`'s loop (`i := a`, `j := b-1`, swap while `i < j`). -/
def reverseRangeLoop : Nat → List α → Nat → Nat → List α
  | 0, l, _, _ => l
  | fuel + 1, l, i, j =>
    if i < j then reverseRangeLoop fuel (swapIdx l i j) (i + 1) (j - 1) else l

/-- `reverseRange_func(data, a, b)`. -/
def reverseRangeGo (l : List α) (a b : Nat) : List α :=
  reverseRangeLoop (b + 1) l a (b - 1)

/-- `bits.Len(uint(n))`. -/
def bitsLen (n : Nat) : Nat := if n = 0 then 0 else Nat.log2 n + 1

/-- One step of the `xorshift` generator (64-bit): `s ^= s << 13; s ^= s >> 7;
s ^= s << 17`. -/
def xorshiftNext (s : Nat) : Nat :=
  let s1 := (s ^^^ (s <<< 13)) % (2 ^ 64)
  let s2 := (s1 ^^^ (s1 >>> 7)) % (2 ^ 64)
  (s2 ^^^ (s2 <<< 17)) % (2 ^ 64)

/-- One swap of `breakPatterns_func`'s loop body. -/
def breakPatternsSwap (l : List α) (idx i rnd modulus length a : Nat) : List α :=
  let other := rnd &&& (modulus - 1)
  let other := if other ≥ length then other - length else other
  swapIdx l (idx - 1 + i) (other + a)

/-- `breakPatterns_func(data, a, b)`: three pseudo-random swaps around the
middle when the range has at least 8 elements. -/
def breakPatternsGo (l : List α) (a b : Nat) : List α :=
  let length := b - a
  if length ≥ 8 then
    let modulus := 1 <<< bitsLen length
    let idx := a + (length / 4) * 2 - 1
    let r1 := xorshiftNext length
    let l1 := breakPatternsSwap l idx 0 r1 modulus length a
    let r2 := xorshiftNext r1
    let l2 := breakPatternsSwap l1 idx 1 r2 modulus length a
    let r3 := xorshiftNext r2
    breakPatternsSwap l2 idx 2 r3 modulus length a
  else l

/-- `order2_func(data, a, b, &swaps)`. -/
def order2Go (less : α → α → Bool) (l : List α) (a b swaps : Nat) : Nat × Nat × Nat :=
  if lessIdx less l b a then (b, a, swaps + 1) else (a, b, swaps)

/-- `median_func(data, a, b, c, &swaps)`. -/
def medianGo (less : α → α → Bool) (l : List α) (a b c swaps : Nat) : Nat × Nat :=
  let (a1, b1, s1) := order2Go less l a b swaps
  let (b2, _, s2) := order2Go less l b1 c s1
  let (_, b3, s3) := order2Go less l a1 b2 s2
  (b3, s3)

/-- `medianAdjacent_func(data, a, &swaps)`. -/
def medianAdjacentGo (less : α → α → Bool) (l : List α) (x swaps : Nat) : Nat × Nat :=
  medianGo less l (x - 1) x (x + 1) swaps

/-- The hint returned by `choosePivot_func`. -/
inductive SortHint where
  | increasing
  | decreasing
  | unknown
  deriving DecidableEq, Repr

/-- `choosePivot_func(data, a, b)`: median (of medians for 50+ elements) of
three probes at the quartiles, with a sortedness hint from the number of
comparisons that were out of order (`maxSwaps = 12`). -/
def choosePivotGo (less : α → α → Bool) (l : List α) (a b : Nat) : Nat × SortHint :=
  let length := b - a
  let i := a + (length / 4) * 1
  let j := a + (length / 4) * 2
  let k := a + (length / 4) * 3
  if length ≥ 8 then
    if length ≥ 50 then
      let (i', s1) := medianAdjacentGo less l i 0
      let (j', s2) := medianAdjacentGo less l j s1
      let (k', s3) := medianAdjacentGo less l k s2
      let (j2, s4) := medianGo less l i' j' k' s3
      (j2, if s4 = 0 then .increasing else if s4 = 12 then .decreasing else .unknown)
    else
      let (j2, s) := medianGo less l i j k 0
      (j2, if s = 0 then .increasing else if s = 12 then .decreasing else .unknown)
  else
    (j, .increasing)

/-- `for i <= j && data.Less(i, a) { i++ }` of `partition_func`. -/
def partSkipI (less : α → α → Bool) (l : List α) (a j : Nat) : Nat → Nat → Nat
  | 0, i => i
  | fuel + 1, i =>
    if i ≤ j ∧ lessIdx less l i a then partSkipI less l a j fuel (i + 1) else i

/-- `for i <= j && !data.Less(j, a) { j-- }` of `partition_func`. -/
def partSkipJ (less : α → α → Bool) (l : List α) (a i : Nat) : Nat → Nat → Nat
  | 0, j => j
  | fuel + 1, j =>
    if i ≤ j ∧ ¬ lessIdx less l j a then partSkipJ less l a i fuel (j - 1) else j

/-- The main loop of `partition_func` (after the first crossing swap). -/
def partMainLoop (less : α → α → Bool) (a : Nat) :
    Nat → List α → Nat → Nat → List α × Nat × Bool
  | 0, l, _, j => (l, j, false)
  | fuel + 1, l, i, j =>
    let i1 := partSkipI less l a j (j + 2) i
    let j1 := partSkipJ less l a i1 (j + 2) j
    if i1 > j1 then (swapIdx l j1 a, j1, false)
    else partMainLoop less a fuel (swapIdx l i1 j1) (i1 + 1) (j1 - 1)

/-- `partition_func(data, a, b, pivot)`: Hoare partition around the pivot
value (moved to position `a` first); returns the new pivot position and
whether the range was already partitioned. -/
def partitionGo (less : α → α → Bool) (l : List α) (a b pivot : Nat) :
    List α × Nat × Bool :=
  let l0 := swapIdx l a pivot
  let i0 := a + 1
  let j0 := b - 1
  let i1 := partSkipI less l0 a j0 (j0 + 2) i0
  let j1 := partSkipJ less l0 a i1 (j0 + 2) j0
  if i1 > j1 then (swapIdx l0 j1 a, j1, true)
  else partMainLoop less a (b + 2) (swapIdx l0 i1 j1) (i1 + 1) (j1 - 1)

/-- `for i <= j && !data.Less(a, i) { i++ }` of `partitionEqual_func`. -/
def peSkipI (less : α → α → Bool) (l : List α) (a j : Nat) : Nat → Nat → Nat
  | 0, i => i
  | fuel + 1, i =>
    if i ≤ j ∧ ¬ lessIdx less l a i then peSkipI less l a j fuel (i + 1) else i

/-- `for i <= j && data.Less(a, j) { j-- }` of `partitionEqual_func`. -/
def peSkipJ (less : α → α → Bool) (l : List α) (a i : Nat) : Nat → Nat → Nat
  | 0, j => j
  | fuel + 1, j =>
    if i ≤ j ∧ lessIdx less l a j then peSkipJ less l a i fuel (j - 1) else j

/-- The loop of `partitionEqual_func`. -/
def peLoop (less : α → α → Bool) (a : Nat) : Nat → List α → Nat → Nat → List α × Nat
  | 0, l, i, _ => (l, i)
  | fuel + 1, l, i, j =>
    let i1 := peSkipI less l a j (j + 2) i
    let j1 := peSkipJ less l a i1 (j + 2) j
    if i1 > j1 then (l, i1)
    else peLoop less a fuel (swapIdx l i1 j1) (i1 + 1) (j1 - 1)

/-- `partitionEqual_func(data, a, b, pivot)`: groups elements equal to the
pivot at the front, returning the first index past them. -/
def partitionEqualGo (less : α → α → Bool) (l : List α) (a b pivot : Nat) :
    List α × Nat :=
  let l0 := swapIdx l a pivot
  peLoop less a (b + 2) l0 (a + 1) (b - 1)

/-- `for i < b && !data.Less(i, i-1) { i++ }` of `partialInsertionSort_func`. -/
def paiScan (less : α → α → Bool) (l : List α) (b : Nat) : Nat → Nat → Nat
  | 0, i => i
  | fuel + 1, i =>
    if i < b ∧ ¬ lessIdx less l i (i - 1) then paiScan less l b fuel (i + 1) else i

/-- The leftward shift of `partialInsertionSort_func`
(`for j := i-1; j >= 1; j--`, breaking at the first ordered pair).  Only
reachable for ranges of at least `shortestShifting = 50` elements. -/
def paiShiftLeft (less : α → α → Bool) : Nat → List α → Nat → List α
  | 0, l, _ => l
  | fuel + 1, l, j =>
    if 1 ≤ j then
      if lessIdx less l j (j - 1) then
        paiShiftLeft less fuel (swapIdx l j (j - 1)) (j - 1)
      else l
    else l

/-- The rightward shift of `partialInsertionSort_func`
(`for j := i+1; j < b; j++`, breaking at the first ordered pair). -/
def paiShiftRight (less : α → α → Bool) (b : Nat) : Nat → List α → Nat → List α
  | 0, l, _ => l
  | fuel + 1, l, j =>
    if j < b then
      if lessIdx less l j (j - 1) then
        paiShiftRight less b fuel (swapIdx l j (j - 1)) (j + 1)
      else l
    else l

/-- The `maxSteps = 5` loop of `partialInsertionSort_func`; `i` persists
across steps. -/
def paiLoop (less : α → α → Bool) (a b : Nat) : Nat → List α → Nat → List α × Bool
  | 0, l, _ => (l, false)
  | steps + 1, l, i =>
    let i1 := paiScan less l b (b + 2) i
    if i1 = b then (l, true)
    else if b - a < 50 then (l, false)
    else
      let l1 := swapIdx l i1 (i1 - 1)
      let l2 := if i1 - a ≥ 2 then paiShiftLeft less (i1 + 2) l1 (i1 - 1) else l1
      let l3 := if b - i1 ≥ 2 then paiShiftRight less b (b + 2) l2 (i1 + 1) else l2
      paiLoop less a b steps l3 i1

/-- `partialInsertionSort_func(data, a, b)`: partially sorts an
almost-sorted range, reporting whether it finished. -/
def partialInsertionSortGo (less : α → α → Bool) (l : List α) (a b : Nat) :
    List α × Bool :=
  paiLoop less a b 5 l (a + 1)

/-- `pdqsort_func(data, a, b, limit)`: the go1.19+ pattern-defeating
quicksort behind `sort.Slice`.  Ranges of at most 12 elements go to
insertion sort; the fuel argument bounds the loop/recursion and is always
supplied amply. -/
def pdqsortRec (less : α → α → Bool) :
    Nat → List α → Nat → Nat → Nat → Bool → Bool → List α
  | 0, l, _, _, _, _, _ => l
  | fuel + 1, l, a, b, limit, wasBalanced, wasPartitioned =>
    if b - a ≤ 12 then insertionSortGo less l a b
    else if limit = 0 then heapSortGo less l a b
    else
      let l1 := if wasBalanced then l else breakPatternsGo l a b
      let limit1 := if wasBalanced then limit else limit - 1
      let (pivot0, hint0) := choosePivotGo less l1 a b
      let l2 := if hint0 = SortHint.decreasing then reverseRangeGo l1 a b else l1
      let pivot1 := if hint0 = SortHint.decreasing then (b - 1) - (pivot0 - a) else pivot0
      let hint1 := if hint0 = SortHint.decreasing then SortHint.increasing else hint0
      let pai :=
        if wasBalanced ∧ wasPartitioned ∧ hint1 = SortHint.increasing then
          partialInsertionSortGo less l2 a b
        else (l2, false)
      if pai.2 then pai.1
      else if 0 < a ∧ ¬ lessIdx less pai.1 (a - 1) pivot1 then
        let pe := partitionEqualGo less pai.1 a b pivot1
        pdqsortRec less fuel pe.1 pe.2 b limit1 wasBalanced wasPartitioned
      else
        let pt := partitionGo less pai.1 a b pivot1
        let mid := pt.2.1
        let leftLen := mid - a
        let rightLen := b - mid
        let balanced := decide (min leftLen rightLen ≥ (b - a) / 8)
        if leftLen < rightLen then
          let l5 := pdqsortRec less fuel pt.1 a mid limit1 true true
          pdqsortRec less fuel l5 (mid + 1) b limit1 balanced pt.2.2
        else
          let l5 := pdqsortRec less fuel pt.1 (mid + 1) b limit1 true true
          pdqsortRec less fuel l5 a mid limit1 balanced pt.2.2

/-- `sort.Slice(x, less)`: `pdqsort_func(lessSwap, 0, n, bits.Len(uint(n)))`. -/
def goSortSlice (less : α → α → Bool) (l : List α) : List α :=
  pdqsortRec less (l.length * l.length + 64) l 0 l.length (bitsLen l.length) true true

/-! ### The leaderboard stores

Two persistence backends exist in the repository: a badger key-value store
(src/unnamed/part_000) and a sqlite table (src/unnamed/part_001).  Both are
modelled structurally: the badger keyspace (keys `sentence:<date>` and
`store:<date>`, JSON values) as two association lists keyed by the date id,
the sqlite `sentences` table (primary key `date_id`) as a row list.  The
`json.Marshal`/`json.Unmarshal` round trip on `DBEntry` is the identity on
the structured value.  `getCurrentDateID()`/`time.Now().Format("2006-01-02")`
is passed as an explicit `dateId` parameter. -/

structure LeaderBoardEntry where
  UserID : String
  Username : String
  WPM : Int
  deriving DecidableEq, Repr

structure DBEntry where
  DateID : String
  UserStats : List LeaderBoardEntry
  deriving DecidableEq, Repr

structure LeaderBoardResponse where
  DateID : String
  LeaderboardEntries : List LeaderBoardEntry
  deriving DecidableEq, Repr

/-- The `sort.Slice` comparator of `GetLeaderBoard`:
`leaderBoardEntries[i].WPM > leaderBoardEntries[j].WPM`. -/
def lessEntry (x y : LeaderBoardEntry) : Bool := decide (y.WPM < x.WPM)

def lookupAssoc (l : List (String × β)) (k : String) : Option β :=
  match l with
  | [] => none
  | (k', v) :: rest => if k' = k then some v else lookupAssoc rest k

/-- A badger `txn.Set`: overwrite the value under a key (insert if absent). -/
def setAssoc (l : List (String × β)) (k : String) (v : β) : List (String × β) :=
  match l with
  | [] => [(k, v)]
  | (k', v') :: rest => if k' = k then (k, v) :: rest else (k', v') :: setAssoc rest k v

/-- The badger store. -/
structure BadgerStore where
  sentences : List (String × String)
  records : List (String × DBEntry)
  deriving DecidableEq, Repr

def lookupRecord (st : BadgerStore) (dateId : String) : Option DBEntry :=
  lookupAssoc st.records dateId

/-- badger `GetUserChallengeStatus(userID)`: any `getValue` failure (key
missing) yields `(false, nil)`. -/
def GetUserChallengeStatusBadger (st : BadgerStore) (dateId userID : String) : Bool :=
  match lookupRecord st dateId with
  | none => false
  | some e => e.UserStats.any (fun entry => entry.UserID == userID)

/-- badger `GetLeaderBoard()`: on a missing record returns the empty
response with a nil error; otherwise copies the stats and sorts the copy
with `sort.Slice` by WPM descending. -/
def GetLeaderBoardBadger (st : BadgerStore) (dateId : String) : LeaderBoardResponse :=
  match lookupRecord st dateId with
  | none => { DateID := dateId, LeaderboardEntries := [] }
  | some e => { DateID := dateId, LeaderboardEntries := goSortSlice lessEntry e.UserStats }

/-- badger `SubmitSentence`: read today's record (empty default when
missing), fail when the user already appears, otherwise append and write
back. -/
def SubmitSentenceBadger (st : BadgerStore) (dateId userID username : String)
    (wpm : Int) : Except String BadgerStore :=
  let todayEntry :=
    match lookupRecord st dateId with
    | some e => e
    | none => { DateID := dateId, UserStats := [] }
  if todayEntry.UserStats.any (fun entry => entry.UserID == userID) then
    .error "user has already submitted a score today"
  else
    let newEntry := { todayEntry with
      UserStats := todayEntry.UserStats ++ [⟨userID, username, wpm⟩] }
    .ok { st with records := setAssoc st.records dateId newEntry }

/-- badger `InsertSentence`: unconditionally overwrites the sentence key,
then creates an empty record only when none exists. -/
def InsertSentenceBadger (st : BadgerStore) (dateId sentence : String) : BadgerStore :=
  let st1 := { st with sentences := setAssoc st.sentences dateId sentence }
  match lookupRecord st1 dateId with
  | none =>
    let emptyEntry : DBEntry := { DateID := dateId, UserStats := [] }
    { st1 with records := setAssoc st1.records dateId emptyEntry }
  | some _ => st1

/-- A row of the sqlite `sentences` table (`date_id` is the primary key;
the JSON `value` column is carried structurally). -/
structure SqlRow where
  dateId : String
  sentence : String
  value : DBEntry
  deriving DecidableEq, Repr

abbrev SqlTable := List SqlRow

/-- `SELECT ... FROM sentences WHERE date_id = ?` (scan of the single row). -/
def sqlLookup (tbl : SqlTable) (dateId : String) : Option SqlRow :=
  tbl.find? (fun r => r.dateId == dateId)

/-- sqlite `GetUserChallengeStatus(userID)`: a missing row makes `Scan`
fail, which is returned as an error (with `false`). -/
def GetUserChallengeStatusSql (tbl : SqlTable) (dateId userID : String) :
    Except String Bool :=
  match sqlLookup tbl dateId with
  | none => .error "failed to get value"
  | some row => .ok (row.value.UserStats.any (fun entry => entry.UserID == userID))

/-- sqlite `GetLeaderBoard()`: errors on a missing row, otherwise sorts a
copy of the stats with `sort.Slice` by WPM descending. -/
def GetLeaderBoardSql (tbl : SqlTable) (dateId : String) :
    Except String LeaderBoardResponse :=
  match sqlLookup tbl dateId with
  | none => .error "failed to get value"
  | some row =>
    .ok { DateID := dateId,
          LeaderboardEntries := goSortSlice lessEntry row.value.UserStats }

/-- sqlite `SubmitSentence`: reads today's row, only PRINTS a log line when
the user already appears in the stats, then appends unconditionally and
updates the row. -/
def SubmitSentenceSql (tbl : SqlTable) (dateId userID username : String)
    (wpm : Int) : Except String SqlTable :=
  match sqlLookup tbl dateId with
  | none => .error "failed to get value"
  | some row =>
    let newValue := { row.value with UserStats :=
      row.value.UserStats ++ [⟨userID, username, wpm⟩] }
    .ok (tbl.map (fun r => if r.dateId == dateId then { r with value := newValue } else r))

/-- sqlite `InsertSentence`: a plain `INSERT` that fails on the primary-key
conflict when the date already has a row, changing nothing. -/
def InsertSentenceSql (tbl : SqlTable) (dateId sentence : String) :
    Except String SqlTable :=
  if tbl.any (fun r => r.dateId == dateId) then .error "failed to insert sentence"
  else
    let emptyValue : DBEntry := { DateID := dateId, UserStats := [] }
    .ok (tbl ++ [{ dateId := dateId, sentence := sentence, value := emptyValue }])

/-- The TUI's `fetchUserDailyChallengeStatusCmd`: an error from the store is
turned into `false`. -/
def fetchUserDailyChallengeStatusMsg (r : Except String Bool) : Bool :=
  match r with
  | .error _ => false
  | .ok b => b

/-- The TUI's `fetchTodaysLeaderBoardCmd`: an error from the store is turned
into an empty entry list. -/
def fetchTodaysLeaderBoardMsg (r : Except String LeaderBoardResponse) :
    List LeaderBoardEntry :=
  match r with
  | .error _ => []
  | .ok resp => resp.LeaderboardEntries

/-! ### C1: duplicate submissions -/

def c1Entries : List LeaderBoardEntry := [⟨"u1", "bobby1", 50⟩]

def c1Badger : BadgerStore :=
  { sentences := [("2026-10-11", "the daily sentence")],
    records := [("2026-10-11", ⟨"2026-10-11", c1Entries⟩)] }

def c1Table : SqlTable :=
  [⟨"2026-10-11", "the daily sentence", ⟨"2026-10-11", c1Entries⟩⟩]

/-- C1: with user `u1` already on today's record, the badger
`SubmitSentence` fails with the already-submitted error and writes nothing,
as the claim states — but the sqlite `SubmitSentence` (which detects the
duplicate and only prints a log line) appends a second `u1` entry and
commits successfully. -/
theorem duplicate_submit_divergence :
    SubmitSentenceBadger c1Badger "2026-10-11" "u1" "bobby2" 60 =
      .error "user has already submitted a score today" ∧
    SubmitSentenceSql c1Table "2026-10-11" "u1" "bobby2" 60 =
      .ok [⟨"2026-10-11", "the daily sentence",
        ⟨"2026-10-11", [⟨"u1", "bobby1", 50⟩, ⟨"u1", "bobby2", 60⟩]⟩⟩] := by
  constructor <;> rfl

/-! ### C5: reads on a missing date -/

/-- C5 counterexample: on an empty store (no row for the date at all) both
sqlite reads return an error, not the claimed safe defaults. -/
theorem sql_missing_date_errors :
    GetUserChallengeStatusSql [] "2026-10-11" "u1" = .error "failed to get value" ∧
    GetLeaderBoardSql [] "2026-10-11" = .error "failed to get value" := by
  constructor <;> rfl

/-- C5 amended: the badger reads return the safe defaults (false, empty
list) with no error when no record exists for the date; the sqlite reads
return an error for a missing row, and it is their TUI callers that turn
that error into the same safe defaults. -/
theorem reads_default_on_missing_record (st : BadgerStore) (tbl : SqlTable)
    (d u : String) (h1 : lookupRecord st d = none) (h2 : sqlLookup tbl d = none) :
    GetUserChallengeStatusBadger st d u = false ∧
    GetLeaderBoardBadger st d = { DateID := d, LeaderboardEntries := [] } ∧
    fetchUserDailyChallengeStatusMsg (GetUserChallengeStatusSql tbl d u) = false ∧
    fetchTodaysLeaderBoardMsg (GetLeaderBoardSql tbl d) = [] := by
  refine ⟨?_, ?_, ?_, ?_⟩
  · simp [GetUserChallengeStatusBadger, h1]
  · simp [GetLeaderBoardBadger, h1]
  · simp [GetUserChallengeStatusSql, fetchUserDailyChallengeStatusMsg, h2]
  · simp [GetLeaderBoardSql, fetchTodaysLeaderBoardMsg, h2]

theorem reads_default_on_missing_record_witness :
    GetUserChallengeStatusBadger ⟨[], []⟩ "2026-10-11" "u1" = false ∧
    GetLeaderBoardBadger ⟨[], []⟩ "2026-10-11" =
      { DateID := "2026-10-11", LeaderboardEntries := [] } ∧
    fetchUserDailyChallengeStatusMsg
      (GetUserChallengeStatusSql [] "2026-10-11" "u1") = false ∧
    fetchTodaysLeaderBoardMsg (GetLeaderBoardSql [] "2026-10-11") = [] :=
  reads_default_on_missing_record ⟨[], []⟩ [] "2026-10-11" "u1" rfl rfl

/-! ### C6: re-publishing a sentence -/

def c6Badger : BadgerStore :=
  { sentences := [("2026-10-11", "old sentence")],
    records := [("2026-10-11", ⟨"2026-10-11", c1Entries⟩)] }

/-- C6 counterexample: the badger `InsertSentence` for a date that already
has a sentence (and submissions) silently overwrites the stored sentence. -/
theorem insert_overwrites_existing_sentence :
    lookupAssoc c6Badger.sentences "2026-10-11" = some "old sentence" ∧
    lookupAssoc (InsertSentenceBadger c6Badger "2026-10-11" "new sentence").sentences
      "2026-10-11" = some "new sentence" := by
  constructor <;> rfl

/-- C6 amended: a publish for a date that already has a record never
replaces or empties the accumulated ChallengeRecord (badger), and the
sqlite `InsertSentence` refuses to touch an existing row at all (primary-key
conflict); the badger `InsertSentence`, however, does overwrite the
DailySentence text for the date. -/
theorem insert_preserves_records (st : BadgerStore) (tbl : SqlTable)
    (d s : String) (e : DBEntry) (row : SqlRow)
    (h1 : lookupRecord st d = some e) (h2 : sqlLookup tbl d = some row) :
    lookupRecord (InsertSentenceBadger st d s) d = some e ∧
    InsertSentenceSql tbl d s = .error "failed to insert sentence" := by
  constructor
  · have hrec : lookupRecord { st with
        sentences := setAssoc st.sentences d s } d = some e := h1
    simp only [InsertSentenceBadger, hrec]
  · have h2' : tbl.find? (fun r => r.dateId == d) = some row := h2
    have hmem : row ∈ tbl := List.mem_of_find?_eq_some h2'
    have hprop : (row.dateId == d) = true := by
      have := List.find?_some h2'
      simpa using this
    have hany : tbl.any (fun r => r.dateId == d) = true :=
      List.any_eq_true.mpr ⟨row, hmem, hprop⟩
    simp [InsertSentenceSql, hany]

theorem insert_preserves_records_witness :
    lookupRecord (InsertSentenceBadger c6Badger "2026-10-11" "new sentence")
      "2026-10-11" = some ⟨"2026-10-11", c1Entries⟩ ∧
    InsertSentenceSql c1Table "2026-10-11" "new sentence" =
      .error "failed to insert sentence" :=
  insert_preserves_records c6Badger c1Table "2026-10-11" "new sentence"
    ⟨"2026-10-11", c1Entries⟩ ⟨"2026-10-11", "the daily sentence", ⟨"2026-10-11", c1Entries⟩⟩
    rfl rfl

/-! ### C3: leaderboard ordering -/

/-- Thirteen submissions in order `a..m`: one 9, one 1, eleven tied at 5. -/
def c3Entries : List LeaderBoardEntry :=
  [⟨"a", "a", 5⟩, ⟨"b", "b", 5⟩, ⟨"c", "c", 5⟩, ⟨"d", "d", 9⟩, ⟨"e", "e", 5⟩,
   ⟨"f", "f", 1⟩, ⟨"g", "g", 5⟩, ⟨"h", "h", 5⟩, ⟨"i", "i", 5⟩, ⟨"j", "j", 5⟩,
   ⟨"k", "k", 5⟩, ⟨"l", "l", 5⟩, ⟨"m", "m", 5⟩]

def c3Badger : BadgerStore :=
  { sentences := [("2026-10-11", "the daily sentence")],
    records := [("2026-10-11", ⟨"2026-10-11", c3Entries⟩)] }

/-- C3 counterexample: with 13 entries `sort.Slice` leaves its insertion-sort
regime and the Hoare partition reorders the eleven entries tied at 5 WPM —
the leaderboard comes back `d, g, c, b, e, a, h, i, j, k, l, m, f`, not in
submission order among the ties, so the sort is not stable. -/
theorem leaderboard_sort_not_stable :
    (GetLeaderBoardBadger c3Badger "2026-10-11").LeaderboardEntries.filter
        (fun x => x.WPM == 5) ≠
      c3Entries.filter (fun x => x.WPM == 5) ∧
    (GetLeaderBoardBadger c3Badger "2026-10-11").LeaderboardEntries.map
        (fun x => x.UserID) =
      ["d", "g", "c", "b", "e", "a", "h", "i", "j", "k", "l", "m", "f"] := by
  constructor
  · decide
  · rfl

/-! #### Insertion sort bridge

For ranges of at most `maxInsertion = 12` elements `pdqsort_func` delegates
to `insertionSort_func`, whose bubbling is a stable insertion: each new
element moves left only past elements strictly less than it.  The index
loops are related to a functional insertion (`insRev` on the reversed
prefix) and the stability and sortedness of the latter are proved. -/

/-- Insert `x` into the reversed prefix: walk past elements `e` with
`less x e` and stop at the first other one. -/
def insRev (less : α → α → Bool) (x : α) : List α → List α
  | [] => [x]
  | e :: rest => if less x e then e :: insRev less x rest else x :: e :: rest

/-- The net effect of one bubbling pass: insert `x` coming from the right
end of the prefix `p`. -/
def rightIns (less : α → α → Bool) (p : List α) (x : α) : List α :=
  (insRev less x p.reverse).reverse

theorem insRev_length (less : α → α → Bool) (x : α) (r : List α) :
    (insRev less x r).length = r.length + 1 := by
  induction r with
  | nil => rfl
  | cons e rest ih =>
    simp only [insRev]
    split <;> simp [ih]

theorem rightIns_length (less : α → α → Bool) (p : List α) (x : α) :
    (rightIns less p x).length = p.length + 1 := by
  simp [rightIns, insRev_length]

theorem get?_append_len (p : List α) (x : α) (rest : List α) :
    (p ++ x :: rest).get? p.length = some x := by
  rw [List.get?_append_right (by omega)]
  simp

theorem get?_append_len_succ (p : List α) (e x : α) (rest : List α) :
    (p ++ e :: x :: rest).get? (p.length + 1) = some x := by
  rw [List.get?_append_right (by omega)]
  simp [Nat.add_sub_cancel_left]

theorem lessIdx_adj (less : α → α → Bool) (p : List α) (e x : α) (rest : List α) :
    lessIdx less (p ++ e :: x :: rest) (p.length + 1) p.length = less x e := by
  unfold lessIdx
  rw [get?_append_len_succ, get?_append_len]

theorem set_append_len (p l2 : List α) (k : Nat) (v : α) :
    (p ++ l2).set (p.length + k) v = p ++ l2.set k v := by
  induction p with
  | nil => simp
  | cons a p ih =>
    simp only [List.cons_append, List.length_cons]
    rw [show p.length + 1 + k = (p.length + k) + 1 from by omega]
    simp only [List.set_cons_succ]
    rw [ih]

theorem swap_adj (p : List α) (e x : α) (rest : List α) :
    swapIdx (p ++ e :: x :: rest) (p.length + 1) p.length = p ++ x :: e :: rest := by
  unfold swapIdx
  rw [get?_append_len_succ, get?_append_len]
  show ((p ++ e :: x :: rest).set (p.length + 1) e).set p.length x = p ++ x :: e :: rest
  have hs1 : (p ++ e :: x :: rest).set (p.length + 1) e = p ++ e :: e :: rest := by
    have h := set_append_len p (e :: x :: rest) 1 e
    simpa using h
  have hs2 : (p ++ e :: e :: rest).set p.length x = p ++ x :: e :: rest := by
    have h := set_append_len p (e :: e :: rest) 0 x
    simpa using h
  rw [hs1, hs2]

theorem insInner_eq (less : α → α → Bool) (x : α) :
    ∀ (p rest : List α) (fuel : Nat), p.length + 1 ≤ fuel →
      insInner less 0 fuel (p ++ x :: rest) p.length = rightIns less p x ++ rest := by
  intro p
  induction p using List.reverseRecOn with
  | nil =>
    intro rest fuel hf
    match fuel, hf with
    | fuel + 1, _ =>
      simp [insInner, rightIns, insRev]
  | append_singleton p' e ih =>
    intro rest fuel hf
    match fuel, hf with
    | fuel + 1, hf =>
      have hlen : (p' ++ [e]).length = p'.length + 1 := by simp
      have hassoc : (p' ++ [e]) ++ x :: rest = p' ++ e :: x :: rest := by simp
      rw [hlen, hassoc]
      simp only [insInner]
      rw [show p'.length + 1 - 1 = p'.length from by omega, lessIdx_adj]
      by_cases hxe : less x e = true
      · rw [if_pos ⟨by omega, hxe⟩, swap_adj]
        have hres := ih (e :: rest) fuel (by simp at hf; omega)
        rw [hres]
        have hri : rightIns less (p' ++ [e]) x = rightIns less p' x ++ [e] := by
          simp [rightIns, insRev, hxe]
        rw [hri]
        simp
      · rw [if_neg (by intro hand; exact hxe hand.2)]
        have hri : rightIns less (p' ++ [e]) x = p' ++ [e, x] := by
          simp [rightIns, insRev, hxe]
        rw [hri]
        simp

theorem insOuter_eq (less : α → α → Bool) :
    ∀ (rest p : List α) (fuel : Nat), rest.length + 1 ≤ fuel →
      insOuter less 0 (p.length + rest.length) fuel (p ++ rest) p.length =
        rest.foldl (rightIns less) p := by
  intro rest
  induction rest with
  | nil =>
    intro p fuel hf
    match fuel, hf with
    | fuel + 1, _ => simp [insOuter]
  | cons x rest' ih =>
    intro p fuel hf
    match fuel, hf with
    | fuel + 1, hf =>
      simp only [insOuter, List.length_cons]
      rw [if_pos (by omega)]
      rw [insInner_eq less x p rest' (p.length + 1) (by omega)]
      have h1 := ih (rightIns less p x) fuel (by simp at hf; omega)
      rw [rightIns_length] at h1
      rw [show p.length + (rest'.length + 1) = p.length + 1 + rest'.length from by omega]
      rw [h1]
      simp

theorem insertionSortGo_eq_foldl (less : α → α → Bool) (l : List α) :
    insertionSortGo less l 0 l.length = l.foldl (rightIns less) [] := by
  cases l with
  | nil => simp [insertionSortGo, insOuter]
  | cons x rest =>
    have h := insOuter_eq less rest [x] (rest.length + 2) (by omega)
    simp only [List.length_singleton, List.singleton_append] at h
    unfold insertionSortGo
    rw [show (x :: rest).length = 1 + rest.length from by simp [Nat.add_comm]]
    rw [show 1 + rest.length + 1 = rest.length + 2 from by omega]
    rw [h]
    rw [List.foldl_cons]
    rfl

theorem foldl_rightIns_reverse (less : α → α → Bool) (l : List α) :
    ∀ p : List α,
      l.foldl (rightIns less) p =
        (l.foldl (fun r x => insRev less x r) p.reverse).reverse := by
  induction l with
  | nil => intro p; simp
  | cons x l' ih =>
    intro p
    simp only [List.foldl_cons]
    rw [ih (rightIns less p x)]
    have h : (rightIns less p x).reverse = insRev less x p.reverse := by
      simp [rightIns]
    rw [h]

theorem mem_insRev (less : α → α → Bool) (x : α) (r : List α) (y : α)
    (h : y ∈ insRev less x r) : y = x ∨ y ∈ r := by
  induction r with
  | nil => simpa [insRev] using h
  | cons e rest ih =>
    simp only [insRev] at h
    split at h
    · rcases List.mem_cons.mp h with rfl | h'
      · right; simp
      · rcases ih h' with h'' | h''
        · left; exact h''
        · right; simp [h'']
    · rcases List.mem_cons.mp h with rfl | h'
      · left; rfl
      · right; exact h'

/-- `GetLeaderBoard`'s output order: WPM non-increasing. -/
def sortedDescWPM (l : List LeaderBoardEntry) : Prop :=
  l.Pairwise (fun x y => y.WPM ≤ x.WPM)

theorem insRev_sorted (x : LeaderBoardEntry) (r : List LeaderBoardEntry)
    (h : r.Pairwise (fun u v => u.WPM ≤ v.WPM)) :
    (insRev lessEntry x r).Pairwise (fun u v => u.WPM ≤ v.WPM) := by
  induction r with
  | nil => simp [insRev]
  | cons e rest ih =>
    rcases List.pairwise_cons.mp h with ⟨he, hrest⟩
    by_cases hc : lessEntry x e = true
    · have hxe : e.WPM < x.WPM := by simpa [lessEntry] using hc
      simp only [insRev, hc, if_true]
      refine List.pairwise_cons.mpr ⟨?_, ih hrest⟩
      intro y hy
      rcases mem_insRev lessEntry x rest y hy with rfl | hy'
      · omega
      · exact he y hy'
    · have hxe : x.WPM ≤ e.WPM := by
        have : ¬ e.WPM < x.WPM := by simpa [lessEntry] using hc
        omega
      simp only [insRev, hc, Bool.false_eq_true, if_false]
      refine List.pairwise_cons.mpr ⟨?_, h⟩
      intro y hy
      rcases List.mem_cons.mp hy with rfl | hy'
      · exact hxe
      · have := he y hy'
        omega

theorem insRev_filter (x : LeaderBoardEntry) (r : List LeaderBoardEntry) (w : Int) :
    (insRev lessEntry x r).filter (fun e => e.WPM == w) =
      (if x.WPM == w then x :: r.filter (fun e => e.WPM == w)
       else r.filter (fun e => e.WPM == w)) := by
  induction r with
  | nil =>
    by_cases hw : (x.WPM == w) = true
    · simp [insRev, hw]
    · have hw' : (x.WPM == w) = false := by simpa using hw
      simp [insRev, hw']
  | cons e rest ih =>
    by_cases hc : lessEntry x e = true
    · have hxe : e.WPM < x.WPM := by simpa [lessEntry] using hc
      simp only [insRev, hc, if_true, List.filter_cons, ih]
      by_cases hw : (x.WPM == w) = true
      · have hxw : x.WPM = w := by simpa using hw
        have hew : (e.WPM == w) = false := by
          simp only [beq_eq_false_iff_ne, ne_eq]
          omega
        simp [hw, hew]
      · have hw' : (x.WPM == w) = false := by simpa using hw
        simp [hw']
    · simp only [insRev, hc, Bool.false_eq_true, if_false, List.filter_cons]

theorem foldl_insRev_sorted (l : List LeaderBoardEntry) :
    ∀ acc, acc.Pairwise (fun u v => u.WPM ≤ v.WPM) →
      (l.foldl (fun r x => insRev lessEntry x r) acc).Pairwise
        (fun u v => u.WPM ≤ v.WPM) := by
  induction l with
  | nil => intro acc h; simpa using h
  | cons x l' ih =>
    intro acc h
    simp only [List.foldl_cons]
    exact ih (insRev lessEntry x acc) (insRev_sorted x acc h)

theorem foldl_insRev_filter (l : List LeaderBoardEntry) (w : Int) :
    ∀ acc, (l.foldl (fun r x => insRev lessEntry x r) acc).filter
        (fun e => e.WPM == w) =
      (l.filter (fun e => e.WPM == w)).reverse ++ acc.filter (fun e => e.WPM == w) := by
  induction l with
  | nil => intro acc; simp
  | cons x l' ih =>
    intro acc
    simp only [List.foldl_cons, List.filter_cons]
    rw [ih (insRev lessEntry x acc), insRev_filter]
    by_cases hw : (x.WPM == w) = true
    · simp [hw]
    · have hw' : (x.WPM == w) = false := by simpa using hw
      simp [hw']

theorem pdqsortRec_small (less : α → α → Bool) (fuel : Nat) (l : List α)
    (a b limit : Nat) (wb wp : Bool) (h : b - a ≤ 12) :
    pdqsortRec less (fuel + 1) l a b limit wb wp = insertionSortGo less l a b := by
  simp only [pdqsortRec]
  rw [if_pos h]

theorem goSortSlice_small (less : α → α → Bool) (l : List α) (h : l.length ≤ 12) :
    goSortSlice less l = l.foldl (rightIns less) [] := by
  unfold goSortSlice
  rw [show l.length * l.length + 64 = l.length * l.length + 63 + 1 from rfl]
  rw [pdqsortRec_small less (l.length * l.length + 63) l 0 l.length
    (bitsLen l.length) true true (by omega)]
  exact insertionSortGo_eq_foldl less l

/-- C3 amended: for a day's record with at most 12 entries — where
`sort.Slice` delegates to its stable insertion sort — `GetLeaderBoard` is
sorted by WPM descending and entries of equal WPM keep submission order.
With 13 or more entries `sort.Slice` leaves that regime and can reorder
equal-WPM entries (see the counterexample); no ordering statement is made
beyond the insertion-sort regime. -/
theorem leaderboard_sorted_and_stable_upto_12 (st : BadgerStore) (d : String)
    (e : DBEntry) (h : lookupRecord st d = some e)
    (hlen : e.UserStats.length ≤ 12) :
    sortedDescWPM (GetLeaderBoardBadger st d).LeaderboardEntries ∧
    ∀ w : Int, (GetLeaderBoardBadger st d).LeaderboardEntries.filter
        (fun x => x.WPM == w) =
      e.UserStats.filter (fun x => x.WPM == w) := by
  have hout : (GetLeaderBoardBadger st d).LeaderboardEntries =
      goSortSlice lessEntry e.UserStats := by
    simp [GetLeaderBoardBadger, h]
  rw [hout, goSortSlice_small lessEntry e.UserStats hlen,
    foldl_rightIns_reverse lessEntry e.UserStats []]
  simp only [List.reverse_nil]
  constructor
  · have hs := foldl_insRev_sorted e.UserStats [] (by simp)
    exact List.pairwise_reverse.mpr hs
  · intro w
    rw [List.filter_reverse, foldl_insRev_filter e.UserStats w []]
    simp

/-- Concrete instance of C3 (amended): three entries with a tie at 5 WPM
stay in submission order behind the 9. -/
def c3SmallBadger : BadgerStore :=
  { sentences := [("2026-10-11", "the daily sentence")],
    records := [("2026-10-11", ⟨"2026-10-11",
      [⟨"a", "a", 5⟩, ⟨"b", "b", 9⟩, ⟨"c", "c", 5⟩]⟩)] }

theorem leaderboard_sorted_and_stable_upto_12_witness :
    sortedDescWPM (GetLeaderBoardBadger c3SmallBadger "2026-10-11").LeaderboardEntries ∧
    (GetLeaderBoardBadger c3SmallBadger "2026-10-11").LeaderboardEntries.filter
        (fun x => x.WPM == 5) =
      [⟨"a", "a", 5⟩, ⟨"b", "b", 9⟩, ⟨"c", "c", 5⟩].filter
        (fun x => (LeaderBoardEntry.WPM x) == 5) :=
  ⟨(leaderboard_sorted_and_stable_upto_12 c3SmallBadger "2026-10-11"
      ⟨"2026-10-11", [⟨"a", "a", 5⟩, ⟨"b", "b", 9⟩, ⟨"c", "c", 5⟩]⟩ rfl
      (by decide)).1,
   (leaderboard_sorted_and_stable_upto_12 c3SmallBadger "2026-10-11"
      ⟨"2026-10-11", [⟨"a", "a", 5⟩, ⟨"b", "b", 9⟩, ⟨"c", "c", 5⟩]⟩ rfl
      (by decide)).2 5⟩

end Monkeyy
